import Mathlib

/-!
Verification development for `tw2wa.js`, the Twitter → WhatsApp forwarder.

The JavaScript source is shallowly embedded: every `def` below carries a
comment pointing at the source lines it translates.  Strings are modelled as
`String` (a `List Char` wrapper), JS objects with optional string fields as
structures of `Option String` (where a JS falsy `""`/`null`/`undefined` is
modelled through the `jsOr` helper), network effects as explicit oracle
functions `String → Except String String`, and library calls
(`node-html-parser`, `he`, `Date`, `Intl.DateTimeFormat`) as small executable
models documented at their definitions.  All recursion is structural so that
every definition reduces inside the kernel.
-/

set_option maxRecDepth 10000

/-- Whitespace class used by the model for the JS `\s` regex class and
`String.prototype.trim` (restricted to the ASCII whitespace that actually
occurs in the feeds). -/
def isWsChar (c : Char) : Bool :=
  c = ' ' || c = '\t' || c = '\n' || c = '\r'

/-- Whitespace other than a newline: the characters that count as removable
trailing whitespace of a single line. -/
def wsNotNl (c : Char) : Bool :=
  isWsChar c && !(c = '\n')

/-- Case-sensitive literal match: drop `pat` from the front of the input,
returning the remainder on success. -/
def dropPat : List Char → List Char → Option (List Char)
  | [], cs => some cs
  | _ :: _, [] => none
  | p :: ps, c :: cs => if c = p then dropPat ps cs else none

/-- Case-insensitive literal match against a pattern given as
(lower, upper) character pairs. -/
def dropPatCI : List (Char × Char) → List Char → Option (List Char)
  | [], cs => some cs
  | _ :: _, [] => none
  | (a, b) :: ps, c :: cs => if c = a || c = b then dropPatCI ps cs else none

/-- Build a case-insensitive pattern from a literal string. -/
def ciPat (s : String) : List (Char × Char) :=
  s.data.map (fun c => (c.toLower, c.toUpper))

/-- Replace every (case-insensitive) occurrence of `pat` by `rep`; the `Nat`
fuel is instantiated with the input length, which bounds the recursion because
each match consumes at least one character.  Models the JS
`String.prototype.replace(/pat/gi, rep)` calls of `htmlToText`
(src/tw2wa.js:326-328). -/
def replaceAllCI (pat : List (Char × Char)) (rep : List Char) : Nat → List Char → List Char
  | _, [] => []
  | 0, cs => cs
  | n + 1, c :: cs =>
    match dropPatCI pat (c :: cs) with
    | some r => rep ++ replaceAllCI pat rep n r
    | none => c :: replaceAllCI pat rep n cs

/-- After a case-insensitive `<br`, the source regex `<br\s*\/?>` allows
whitespace, an optional slash and the closing bracket. -/
def brClose (cs : List Char) : Option (List Char) :=
  match cs.dropWhile isWsChar with
  | '/' :: '>' :: r => some r
  | '>' :: r => some r
  | _ => none

/-- Replace `<br>`, `<br/>`, `<br />`, ... (case-insensitively) by a newline;
models `html.replace(/<br\s*\/?>/gi, "\n")` (src/tw2wa.js:325). -/
def brReplace : Nat → List Char → List Char
  | _, [] => []
  | 0, cs => cs
  | n + 1, c :: cs =>
    if c = '<' then
      match dropPatCI (ciPat "br") cs with
      | some r1 =>
        match brClose r1 with
        | some r => '\n' :: brReplace n r
        | none => '<' :: brReplace n cs
      | none => '<' :: brReplace n cs
    else c :: brReplace n cs

/-- The tag-normalisation prefix of `htmlToText` (src/tw2wa.js:324-328):
line breaks and the block-closing tags `</p>`, `</li>`, `</ul>` become
newlines, in the source's replacement order. -/
def tagNorm (l : List Char) : List Char :=
  let l1 := brReplace l.length l
  let l2 := replaceAllCI (ciPat "</p>") ['\n', '\n'] l1.length l1
  let l3 := replaceAllCI (ciPat "</li>") ['\n'] l2.length l2
  replaceAllCI (ciPat "</ul>") ['\n'] l3.length l3

/-- Model of `htmlParse(x).innerText` (node-html-parser): the concatenated
text content, i.e. the input with every `<`...`>` tag region removed.  The
flag tracks whether the scanner is inside a tag. -/
def stripTagsGo : Bool → List Char → List Char
  | _, [] => []
  | false, c :: cs => if c = '<' then stripTagsGo true cs else c :: stripTagsGo false cs
  | true, c :: cs => if c = '>' then stripTagsGo false cs else stripTagsGo true cs

/-- Text content of a parsed HTML fragment (src/tw2wa.js:329-330). -/
def stripTags (l : List Char) : List Char := stripTagsGo false l

/-- Model of `he.decode` restricted to the named/numeric entities that occur
in the feeds; unknown entity text passes through unchanged, as `he` does.
The fuel is instantiated with the input length. -/
def heDecode : Nat → List Char → List Char
  | _, [] => []
  | 0, cs => cs
  | n + 1, c :: cs =>
    if c = '&' then
      match dropPat ['a', 'm', 'p', ';'] cs with
      | some r => '&' :: heDecode n r
      | none =>
        match dropPat ['l', 't', ';'] cs with
        | some r => '<' :: heDecode n r
        | none =>
          match dropPat ['g', 't', ';'] cs with
          | some r => '>' :: heDecode n r
          | none =>
            match dropPat ['q', 'u', 'o', 't', ';'] cs with
            | some r => '"' :: heDecode n r
            | none =>
              match dropPat ['#', '3', '9', ';'] cs with
              | some r => '\'' :: heDecode n r
              | none =>
                match dropPat ['n', 'b', 's', 'p', ';'] cs with
                | some r => ' ' :: heDecode n r
                | none => '&' :: heDecode n cs
    else c :: heDecode n cs

/-- One pass of per-line right-stripping, scanning left to right while
buffering a pending run of non-newline whitespace: the buffer is dropped when
a newline or the end of the input follows, and flushed otherwise.  Models
`text.split("\n").map(s => s.replace(/\s+$/g, "")).join("\n")`
(src/tw2wa.js:332-334). -/
def rslGo (buf : List Char) : List Char → List Char
  | [] => []
  | c :: cs =>
    if wsNotNl c then rslGo (buf ++ [c]) cs
    else if c = '\n' then '\n' :: rslGo [] cs
    else buf ++ c :: rslGo [] cs

/-- Strip trailing whitespace from every line. -/
def rstripLines (l : List Char) : List Char := rslGo [] l

/-- Collapse every run of three or more newlines to exactly two, carrying the
count of newlines read but not yet emitted.  Models
`.replace(/\n{3,}/g, "\n\n")` (src/tw2wa.js:335). -/
def collapseGo (k : Nat) : List Char → List Char
  | [] => List.replicate (min k 2) '\n'
  | c :: cs =>
    if c = '\n' then collapseGo (k + 1) cs
    else List.replicate (min k 2) '\n' ++ c :: collapseGo 0 cs

/-- Collapse 3+ consecutive blank separators to a single blank line. -/
def collapseNl (l : List Char) : List Char := collapseGo 0 l

/-- Model of `String.prototype.trim` (src/tw2wa.js:336). -/
def trimChars (l : List Char) : List Char :=
  (l.dropWhile isWsChar).rdropWhile isWsChar

/-- The `htmlToText` pipeline up to (excluding) the final trim. -/
def preTrim (l : List Char) : List Char :=
  collapseNl (rstripLines (heDecode
    (stripTags (tagNorm l)).length (stripTags (tagNorm l))))

/-- The whole `htmlToText` pipeline on character lists. -/
def htmlToTextCore (l : List Char) : List Char :=
  trimChars (preTrim l)

/-- Embedding of `htmlToText` (src/tw2wa.js:322-337): `if (!html) return ""`,
then tag normalisation, HTML parsing to text, entity decoding, per-line
right-strip, blank-line collapsing and a final trim. -/
def htmlToText (s : String) : String :=
  if s = "" then "" else ⟨htmlToTextCore s.data⟩

/-- Local wellformedness of one position of right-stripped text: a removable
whitespace character may not sit directly before a newline or the end. -/
def headOkFor (c : Char) : List Char → Bool
  | [] => !(wsNotNl c)
  | d :: _ => !(wsNotNl c) || !(d = '\n')

/-- Text whose every line carries no trailing whitespace. -/
def okT : List Char → Bool
  | [] => true
  | c :: cs => headOkFor c cs && okT cs

/-- Scanner for runs of newlines, `k` counting the newlines read just before
the current position; fails as soon as a third consecutive newline shows. -/
def noTripleGo (k : Nat) : List Char → Bool
  | [] => true
  | c :: cs =>
    if c = '\n' then decide (k < 2) && noTripleGo (k + 1) cs
    else noTripleGo 0 cs

/-- Text containing no run of three or more newlines. -/
def noTriple (l : List Char) : Bool := noTripleGo 0 l

/-- The last element, if any, is not whitespace. -/
def lastNotWsb (v : List Char) : Bool :=
  match v.getLast? with
  | none => true
  | some c => !(isWsChar c)

example : htmlToText "hello  <b>world</b>" = "hello  world" := by decide
example : htmlToText "a<br>b" = "a\nb" := by decide
example : htmlToText "<p>x</p><p>y</p>" = "x\n\ny" := by decide
example : htmlToText "&lt;br&gt;" = "<br>" := by decide
example : htmlToText "<br>" = "" := by decide
example : htmlToText "  a \nb\t\n\n\n\nc  " = "a\nb\n\nc" := by decide

/-! ## Items and the normalizer -/

/-- A tier-native item as the scheduler sees it: the union of the fields the
four tiers attach.  RSS entries carry `contentEncoded`/`content`/`title`/
`isoDate`/enclosures; the HTML, markdown-harvest and syndication tiers attach
`link`, `content`, `ts` (the raw `_ts` timestamp string) and `image`
(`_image`).  A JS `undefined`/`null` field is `none`. -/
structure Item where
  link : Option String
  contentEncoded : Option String
  content : Option String
  title : Option String
  isoDate : Option String
  ts : Option String
  image : Option String
  enclosureUrl : Option String
  enclosures0Url : Option String
deriving DecidableEq

/-- JS `a || b` on optional strings: `a` wins unless it is absent or the
empty string (both falsy). -/
def jsOr (a b : Option String) : Option String :=
  match a with
  | some s => if s = "" then b else some s
  | none => b

/-- Leftmost occurrence of `status/` followed by at least one digit; returns
the maximal digit run.  Models the regex `/status\/(\d+)/` used by
`getTweetIdFromLink` (src/tw2wa.js:341). -/
def findStatusId : List Char → Option (List Char)
  | [] => none
  | c :: cs =>
    match dropPat ['s', 't', 'a', 't', 'u', 's', '/'] (c :: cs) with
    | some rest =>
      let ds := rest.takeWhile Char.isDigit
      if ds = [] then findStatusId cs else some ds
    | none => findStatusId cs

/-- Embedding of `getTweetIdFromLink` (src/tw2wa.js:339-343): `null` for a
falsy link, the captured digits of `/status/<digits>/` when present, else the
raw link string. -/
def getTweetIdFromLink (link : Option String) : Option String :=
  match link with
  | none => none
  | some l =>
    if l = "" then none
    else
      match findStatusId l.data with
      | some ds => some ⟨ds⟩
      | none => some l

/-- First match of the title-label regex `/^[^:]+:\s*/`: a nonempty colon-free
prefix, a colon, then greedy whitespace, removed once (src/tw2wa.js:350). -/
def stripLabelOnce (l : List Char) : List Char :=
  let pre := l.takeWhile (fun c => !(c = ':'))
  if pre = [] then l
  else
    match l.drop pre.length with
    | ':' :: rest => rest.dropWhile isWsChar
    | _ => l

/-- Embedding of `extractText` (src/tw2wa.js:345-354): HTML-to-text of
`item["content:encoded"] || item.content || ""`; if that is empty, the title
with a leading `Label: ` prefix stripped, entity-decoded and trimmed. -/
def extractText (item : Item) : String :=
  let rawHtml := (jsOr item.contentEncoded item.content).getD ""
  let text := htmlToText rawHtml
  if text = "" then
    let t := (stripLabelOnce (item.title.getD "").data)
    ⟨trimChars (heDecode t.length t)⟩
  else text

/-! ## Timestamps -/

/-- Modelled environment function: JS `Date.parse`.  The model accepts exactly
the strings made of digits and common date punctuation that contain at least
one digit, and maps them to the number formed by their digits; every other
string is `NaN` (`none`).  Only parseability and injectivity on distinct
date strings matter to the claims. -/
def jsDateParse (s : String) : Option Nat :=
  if s ≠ "" ∧ s.data.any Char.isDigit ∧
      s.data.all (fun c =>
        c.isDigit || c = '-' || c = ':' || c = 'T' || c = 'Z' ||
        c = '.' || c = ' ' || c = '+' || c = '/' || c = ',') then
    some (s.data.foldl (fun n c => if c.isDigit then n * 10 + (c.toNat - 48) else n) 0)
  else none

/-- Modelled environment function: `formatIST` (src/tw2wa.js:357-366), the
`Intl.DateTimeFormat("en-IN", { timeZone: "Asia/Kolkata", ... })` rendering
of a parsed date, abstracted to an injective rendering of the parse value
suffixed with " IST". -/
def formatIST (d : Nat) : String :=
  "t" ++ toString d ++ " IST"

/-- Remove the replacement characters `�` (src/tw2wa.js:302,375). -/
def remRepl (s : String) : String :=
  ⟨s.data.filter (fun c => !(c = '�'))⟩

/-- Substring test (model of `String.prototype.includes`). -/
def containsPat (pat : List Char) : List Char → Bool
  | [] => (dropPat pat []).isSome
  | c :: cs => (dropPat pat (c :: cs)).isSome || containsPat pat cs

/-- Case-insensitive substring test (model of a `/.../i` regex `test`). -/
def containsPatCI (pat : List (Char × Char)) : List Char → Bool
  | [] => (dropPatCI pat []).isSome
  | c :: cs => (dropPatCI pat (c :: cs)).isSome || containsPatCI pat cs

/-- The `_ts` branch of `getDisplayTime` (src/tw2wa.js:374-378): parse the raw
tier timestamp if possible, else pass it through verbatim. -/
def displayFromTs (statusTime : String → Option String) (item : Item) : String :=
  match jsOr item.ts none with
  | some t =>
    match jsDateParse (remRepl t) with
    | some d => formatIST d
    | none => t
  | none =>
    match jsOr item.link none with
    | some l =>
      if containsPat "/status/".data l.data then
        match statusTime l with
        | some ts => if ts = "" then "" else ts
        | none => ""
      else ""
    | none => ""

/-- Embedding of `getDisplayTime` (src/tw2wa.js:369-384).  `statusTime` is the
oracle for the network call `getTweetTimeFromStatus`. -/
def getDisplayTime (statusTime : String → Option String) (item : Item) : String :=
  match jsOr item.isoDate none with
  | some iso =>
    match jsDateParse iso with
    | some d => formatIST d
    | none => displayFromTs statusTime item
  | none => displayFromTs statusTime item

/-! ## Images -/

/-- Literal prefix test on strings (model of `String.prototype.startsWith`). -/
def strStartsWith (pat : List Char) (s : String) : Bool :=
  (dropPat pat s.data).isSome

/-- Scan for `src="` (case-insensitively) among the non-`>` characters of an
`<img` tag body and return the nonempty quote-delimited capture. -/
def imgSrcLook : List Char → Option (List Char)
  | [] => none
  | c :: cs =>
    if c = '>' then none
    else
      match dropPatCI (ciPat "src=\"") (c :: cs) with
      | some rest =>
        let cap := rest.takeWhile (fun x => !(x = '"'))
        if cap ≠ [] ∧ (rest.drop cap.length).head? = some '"' then some cap
        else imgSrcLook cs
      | none => imgSrcLook cs

/-- The regex `<img[^>]+src="([^"]+)"/i` requires at least one character
between `<img` and `src="`. -/
def imgSrcScan : List Char → Option (List Char)
  | [] => none
  | c :: cs => if c = '>' then none else imgSrcLook cs

/-- First `<img ... src="..."` capture in an HTML fragment; models the
fallback pattern match of `pickImage` (src/tw2wa.js:392). -/
def imgSrcMatch : List Char → Option String
  | [] => none
  | c :: cs =>
    match dropPatCI (ciPat "<img") (c :: cs) with
    | some rest =>
      match imgSrcScan rest with
      | some cap => some ⟨cap⟩
      | none => imgSrcMatch cs
    | none => imgSrcMatch cs

/-- Embedding of `pickImage` (src/tw2wa.js:387-394): tier image, then
enclosure URL, then first `<img src>` of the content field, passed through
verbatim. -/
def pickImage (item : Item) : Option String :=
  match jsOr item.image none with
  | some s => some s
  | none =>
    match jsOr item.enclosureUrl none with
    | some s => some s
    | none =>
      match jsOr item.enclosures0Url none with
      | some s => some s
      | none => imgSrcMatch ((jsOr item.contentEncoded item.content).getD "").data

/-- The syndication tier's image normalisation (src/tw2wa.js:186-190):
`src || data-src || null`, protocol-relative URLs rewritten to `https:`. -/
def syndImage (src dataSrc : Option String) : Option String :=
  match jsOr src (jsOr dataSrc none) with
  | none => none
  | some s => if strStartsWith ['/', '/'] s then some ("https:" ++ s) else some s

/-- The OG-metadata tier's image normalisation (src/tw2wa.js:290-291). -/
def ogImage (raw : Option String) : Option String :=
  match jsOr raw none with
  | none => none
  | some s => if strStartsWith ['/', '/'] s then some ("https:" ++ s) else some s

/-- The DOM-timeline tier's image normalisation (src/tw2wa.js:243-248): any
URL starting with `/` — protocol-relative ones included — gets the mirror
base prefixed; `img = src || null`. -/
def domImage (base : String) (src : Option String) : Option String :=
  match src with
  | none => none
  | some s =>
    if s ≠ "" ∧ strStartsWith ['/'] s then some (base ++ s)
    else if s = "" then none
    else some s

example : extractText ⟨none, none, some "post 1", none, none, none, none, none, none⟩ = "post 1" := by decide
example : getTweetIdFromLink (some "https://nitter.net/u/status/123") = some "123" := by decide
example : getTweetIdFromLink (some "https://example.com/page") = some "https://example.com/page" := by decide
example : imgSrcMatch "<p>hi</p><img class=\"pic\" src=\"//example.com/x.jpg\">".data = some "//example.com/x.jpg" := by decide

/-! ## Transport layer -/

/-- `url.replace(/^https?:\/\//i, "")` (src/tw2wa.js:102). -/
def stripScheme (url : String) : String :=
  match dropPatCI (ciPat "https://") url.data with
  | some rest => ⟨rest⟩
  | none =>
    match dropPatCI (ciPat "http://") url.data with
    | some rest => ⟨rest⟩
    | none => url

/-- The plain-scheme read-through proxy URL (src/tw2wa.js:103). -/
def viaHttp (url : String) : String := "https://r.jina.ai/http://" ++ stripScheme url

/-- The secure-scheme read-through proxy URL (src/tw2wa.js:104). -/
def viaHttps (url : String) : String := "https://r.jina.ai/https://" ++ stripScheme url

/-- Embedding of `fetchTextSmart` (src/tw2wa.js:99-111) over a network oracle
`net` standing for `fetchRaw`: direct fetch first; on failure one retry via
the proxy under the plain scheme, then one under the secure scheme; if both
proxied attempts fail, the original error `e1` is re-raised. -/
def fetchTextSmart (net : String → Except String String) (url : String) :
    Except String String :=
  match net url with
  | .ok b => .ok b
  | .error e1 =>
    match net (viaHttp url) with
    | .ok b => .ok b
    | .error _ =>
      match net (viaHttps url) with
      | .ok b => .ok b
      | .error _ => .error e1

/-! ## Response classification (src/tw2wa.js:76-79) -/

/-- `looksLikeWhitelistBlock` (src/tw2wa.js:77). -/
def looksLikeWhitelistBlock (s : String) : Bool :=
  containsPatCI (ciPat "whitelist") s.data &&
    containsPatCI (ciPat "rss reader not yet whitelist") s.data

/-- `looksLikeRateLimit` (src/tw2wa.js:78). -/
def looksLikeRateLimit (s : String) : Bool :=
  containsPatCI (ciPat "rate limit") s.data ||
    containsPatCI (ciPat "try again later") s.data ||
    containsPatCI (ciPat "too many requests") s.data

/-- `looksLikeEmptyTimeline` (src/tw2wa.js:79). -/
def looksLikeEmptyTimeline (s : String) : Bool :=
  containsPatCI (ciPat "no tweets found") s.data ||
    containsPatCI (ciPat "no statuses found") s.data ||
    containsPatCI (ciPat "this account is private") s.data

/-- `isXMLish` (src/tw2wa.js:76): trimmed body starts with `<` and the body
matches `/<rss|<feed/i`. -/
def isXMLish (s : String) : Bool :=
  strStartsWith ['<'] ⟨trimChars s.data⟩ &&
    (containsPatCI (ciPat "<rss") s.data || containsPatCI (ciPat "<feed") s.data)

/-! ## Mirrors and the RSS tier -/

/-- The fixed mirror priority list (src/tw2wa.js:61-67). -/
def NITTER_BASES : List String :=
  ["https://nitter.net", "https://nitter.poast.org", "https://nitter.privacydev.net",
   "https://nitter.tiekoetter.com", "https://nitter.space"]

/-- `handleToUser` (src/tw2wa.js:81): strip one leading `@`. -/
def handleToUser (h : String) : String :=
  match h.data with
  | '@' :: rest => ⟨rest⟩
  | _ => h

/-- Modelled environment function: `encodeURIComponent`, percent-encoding
every character outside the JS unreserved set (ASCII model). -/
def hexDigitChar (n : Nat) : Char :=
  if n < 10 then Char.ofNat (48 + n) else Char.ofNat (55 + n)

/-- Characters `encodeURIComponent` leaves alone. -/
def uriUnreserved (c : Char) : Bool :=
  c.isAlphanum || c = '-' || c = '_' || c = '.' || c = '!' ||
    c = '~' || c = '*' || c = '\'' || c = '(' || c = ')'

/-- ASCII percent-encoding model. -/
def encodeURIComponent (s : String) : String :=
  ⟨s.data.foldr
    (fun c acc =>
      if uriUnreserved c then c :: acc
      else '%' :: hexDigitChar (c.toNat / 16 % 16) :: hexDigitChar (c.toNat % 16) :: acc)
    []⟩

/-- A parsed structured feed; `rss-parser`'s output, reduced to its items. -/
structure Feed where
  items : List Item
deriving DecidableEq

/-- Boolean success test for `Except`. -/
def exceptOk : Except ε α → Bool
  | .ok _ => true
  | .error _ => false

/-- One mirror attempt of the RSS tier (the `try` body of src/tw2wa.js:120-128):
fetch `<base>/<user>/rss`, reject refused or empty-timeline bodies, reject
non-XML bodies, otherwise hand the body to the feed parser (`rssParse` is the
oracle for `parser.parseString`). -/
def rssAttempt (net : String → Except String String)
    (rssParse : String → Except String Feed) (user base : String) :
    Except String Feed :=
  match fetchTextSmart net (base ++ "/" ++ encodeURIComponent user ++ "/rss") with
  | .error e => .error e
  | .ok body =>
    if looksLikeWhitelistBlock body || looksLikeRateLimit body ||
        looksLikeEmptyTimeline body then
      .error "Mirror refused or empty timeline"
    else if !(isXMLish body) then .error "Non-XML response"
    else rssParse body

/-- The mirror loop of `fetchNitterRSS` (src/tw2wa.js:118-130): try each base
in order, return the first success, remember the last error. -/
def goMirrors (att : String → Except String Feed) :
    List String → Option String → Except String Feed
  | [], last => .error (last.getD "All Nitter RSS mirrors failed")
  | base :: rest, _ =>
    match att base with
    | .ok f => .ok f
    | .error e => goMirrors att rest (some e)

/-- Embedding of `fetchNitterRSS` (src/tw2wa.js:116-131). -/
def fetchNitterRSS (net : String → Except String String)
    (rssParse : String → Except String Feed) (handle : String) :
    Except String Feed :=
  goMirrors (rssAttempt net rssParse (handleToUser handle)) NITTER_BASES none

/-! ## Retry wrapper and the tier chain -/

/-- The loop of `withRetry` (src/tw2wa.js:51-58) over an attempt-indexed
oracle: `fuel` counts the retries still allowed; the last error is thrown. -/
def withRetryGo (f : Nat → Except ε α) (a : Nat) : Nat → Except ε α
  | 0 =>
    match f a with
    | .ok v => .ok v
    | .error e => .error e
  | fuel + 1 =>
    match f a with
    | .ok v => .ok v
    | .error _ => withRetryGo f (a + 1) fuel

/-- `withRetry(fn, { retries })`: `retries + 1` attempts. -/
def withRetry (f : Nat → Except ε α) (retries : Nat) : Except ε α :=
  withRetryGo f 0 retries

/-- Embedding of `fetchFeed` (src/tw2wa.js:308-318) over per-tier oracles:
RSS, then HTML, then syndication, each wrapped in `withRetry(..., retries: 1)`;
the syndication error propagates when everything fails. -/
def fetchFeed (rssO htmlO syndO : Nat → Except String Feed) : Except String Feed :=
  match withRetry rssO 1 with
  | .ok f => .ok f
  | .error _ =>
    match withRetry htmlO 1 with
    | .ok f => .ok f
    | .error _ => withRetry syndO 1

/-! ## Dedup registry and the poll scheduler -/

/-- The dedup key `` `${handle}:${id}` `` (src/tw2wa.js:443). -/
def dedupKey (handle id : String) : String := handle ++ ":" ++ id

/-- One delivery to the messaging collaborator, recorded with the in-memory
registry and the on-disk registry as they stood at the moment of sending. -/
structure SendEvent where
  key : String
  memAtSend : List String
  diskAtSend : List String
deriving DecidableEq

/-- The per-handle loop state of `pollOnce` (src/tw2wa.js:435-457): the
in-memory `seen` map (its set of keys), the local `changed` flag and the
deliveries performed so far. -/
structure HandleRun where
  seen : List String
  changed : Bool
  sent : List SendEvent
deriving DecidableEq

/-- The body of the per-item loop of `pollOnce` (src/tw2wa.js:440-457): skip
items without an id; skip keys already marked; mark (without sending) items
whose text is empty; otherwise send, then mark.  `disk` is the on-disk
registry, which the loop never writes. -/
def processItem (handle : String) (disk : List String) (st : HandleRun)
    (item : Item) : HandleRun :=
  match getTweetIdFromLink item.link with
  | none => st
  | some id =>
    let key := dedupKey handle id
    if key ∈ st.seen then st
    else if extractText item = "" then ⟨key :: st.seen, true, st.sent⟩
    else ⟨key :: st.seen, true, st.sent ++ [⟨key, st.seen, disk⟩]⟩

/-- The per-handle cap (src/tw2wa.js:43, default 8). -/
def MAX_ITEMS_PER_HANDLE : Nat := 8

/-- `items.slice(-n)` for positive `n`: the last `n` elements. -/
def sliceLast (n : Nat) (l : List α) : List α := l.drop (l.length - n)

/-- The per-handle item loop (src/tw2wa.js:439-457):
`items.slice(-MAX_ITEMS_PER_HANDLE)` reversed, folded through the item body. -/
def runHandleItems (handle : String) (seen0 disk : List String)
    (items : List Item) : HandleRun :=
  ((sliceLast MAX_ITEMS_PER_HANDLE items).reverse).foldl (processItem handle disk)
    ⟨seen0, false, []⟩

/-- The outcome of one handle within one polling cycle: final in-memory
registry, final on-disk registry, deliveries, and the number of per-handle
failure log lines. -/
structure HandleCycle where
  seen : List String
  disk : List String
  sent : List SendEvent
  logs : Nat
deriving DecidableEq

/-- One handle of `pollOnce` (src/tw2wa.js:433-464): on a feed error, one
failure is logged and nothing changes; otherwise the item loop runs and
`saveSeen()` rewrites the on-disk registry only if `changed` was set. -/
def runHandle (handle : String) (seen0 disk0 : List String)
    (feedRes : Except String Feed) : HandleCycle :=
  match feedRes with
  | .error _ => ⟨seen0, disk0, [], 1⟩
  | .ok feed =>
    let r := runHandleItems handle seen0 disk0 feed.items
    ⟨r.seen, if r.changed then r.seen else disk0, r.sent, 0⟩

/-- The keys delivered by one handle-cycle, in delivery order. -/
def sentKeys (r : HandleCycle) : List String := r.sent.map SendEvent.key

/-- Iterate `runHandle` over the feeds of later cycles, collecting every key
delivered along the way. -/
def runHandleCycles (h : String) :
    List (Except String Feed) → List String → List String →
      List String × List String × List String
  | [], s, d => (s, d, [])
  | f :: fs, s, d =>
    let r := runHandle h s d f
    let rest := runHandleCycles h fs r.seen r.disk
    (rest.1, rest.2.1, sentKeys r ++ rest.2.2)

/-- Convenience: a structured-feed item with the given id, as the RSS tier
produces it (newest first in the feed list). -/
def mkPost (i : Nat) : Item :=
  ⟨some ("https://nitter.net/u/status/" ++ toString i), none,
    some ("post " ++ toString i), none, none, none, none, none, none⟩

example :
    sentKeys (runHandle "@h" [] [] (.ok ⟨[mkPost 12, mkPost 11, mkPost 10]⟩)) =
      ["@h:10", "@h:11", "@h:12"] := by decide
example :
    sentKeys (runHandle "@h" [] []
        (.ok ⟨[mkPost 9, mkPost 8, mkPost 7, mkPost 6, mkPost 5, mkPost 4,
               mkPost 3, mkPost 2, mkPost 1]⟩)) =
      ["@h:1", "@h:2", "@h:3", "@h:4", "@h:5", "@h:6", "@h:7", "@h:8"] := by decide

/-! ## Concrete instances used by witnesses and counterexamples -/

/-- A network oracle that fails every request with the request URL as the
error message, so the origin of a surfaced error is visible. -/
def failNet : String → Except String String := fun u => .error u

/-- A network oracle that answers every request with a minimal RSS body. -/
def okNet : String → Except String String := fun _ => .ok "<rss>x</rss>"

/-- A feed-parser oracle accepting every body as an empty feed. -/
def okParse : String → Except String Feed := fun _ => .ok ⟨[]⟩

/-- A tier oracle whose every attempt fails. -/
def downTier : Nat → Except String Feed := fun _ => .error "down"

/-- An RSS item whose only image lives in the content field, protocol
relative. -/
def contentImgItem : Item :=
  ⟨none, some "<img src=\"//example.com/x.jpg\">", none, none, none, none,
    none, none, none⟩

/-- An item carrying an unparseable structured date and a parseable raw tier
timestamp. -/
def staleIsoItem : Item :=
  ⟨none, none, none, none, some "not a date", some "2024-05-05", none, none, none⟩

/-- `staleIsoItem` with a different raw tier timestamp and the same
structured date. -/
def staleIsoItem2 : Item :=
  ⟨none, none, none, none, some "not a date", some "2023-01-01", none, none, none⟩

/-- An item with both fields present and the structured date parseable. -/
def freshIsoItem : Item :=
  ⟨none, none, none, none, some "2024-05-05", some "1999-01-01", none, none, none⟩

/-- An item with a post link but no extractable content at all. -/
def emptyTextItem : Item :=
  ⟨some "https://nitter.net/u/status/5", none, none, none, none, none, none,
    none, none⟩

/-! ## Transport-layer theorems -/

/-- C6: the transport layer tries the direct fetch first; on any failure it
retries exactly once through the read-through proxy under the plain scheme,
then once under the secure scheme; when both proxied attempts also fail, the
error surfaced to the caller is the original direct-fetch error. -/
theorem fetchTextSmart_proxy_fallback (net : String → Except String String)
    (url : String) :
    (∀ b, net url = .ok b → fetchTextSmart net url = .ok b) ∧
    (∀ e1 b, net url = .error e1 → net (viaHttp url) = .ok b →
      fetchTextSmart net url = .ok b) ∧
    (∀ e1 e2 b, net url = .error e1 → net (viaHttp url) = .error e2 →
      net (viaHttps url) = .ok b → fetchTextSmart net url = .ok b) ∧
    (∀ e1 e2 e3, net url = .error e1 → net (viaHttp url) = .error e2 →
      net (viaHttps url) = .error e3 → fetchTextSmart net url = .error e1) := by
  refine ⟨?_, ?_, ?_, ?_⟩ <;> intros <;> simp only [fetchTextSmart, *]

theorem fetchTextSmart_proxy_fallback_witness :
    fetchTextSmart failNet "http://example.com/a" = .error "http://example.com/a" :=
  (fetchTextSmart_proxy_fallback failNet "http://example.com/a").2.2.2 _ _ _
    rfl rfl rfl

/-! ## Mirror-order theorems -/

/-- The mirror loop returns the first accepted mirror, regardless of the
accumulated last error. -/
theorem goMirrors_first_ok (att : String → Except String Feed)
    (pre : List String) (base : String) (rest : List String) (f : Feed)
    (hpre : ∀ b ∈ pre, exceptOk (att b) = false) (hbase : att base = .ok f) :
    ∀ last, goMirrors att (pre ++ base :: rest) last = .ok f := by
  induction pre with
  | nil => intro last; simp [goMirrors, hbase]
  | cons b bs ih =>
    intro last
    have hb := hpre b (by simp)
    cases hab : att b with
    | ok v => rw [hab] at hb; simp [exceptOk] at hb
    | error e =>
      simp only [List.cons_append, goMirrors, hab]
      exact ih (fun x hx => hpre x (by simp [hx])) _

/-- C7: mirrors are consulted strictly in the fixed `NITTER_BASES` order and
the first accepted, parsed mirror wins; the result never depends on what any
later mirror would have answered, so byte-identical accepted content at a
later mirror can never displace the earlier one. -/
theorem fetchNitterRSS_first_mirror_wins
    (net net₂ : String → Except String String)
    (rssParse rssParse₂ : String → Except String Feed) (handle : String)
    (pre : List String) (base : String) (rest : List String) (f : Feed)
    (hsplit : NITTER_BASES = pre ++ base :: rest)
    (hpre : ∀ b ∈ pre,
      exceptOk (rssAttempt net rssParse (handleToUser handle) b) = false)
    (hbase : rssAttempt net rssParse (handleToUser handle) base = .ok f)
    (hagree : ∀ b ∈ pre ++ [base],
      rssAttempt net₂ rssParse₂ (handleToUser handle) b =
        rssAttempt net rssParse (handleToUser handle) b) :
    fetchNitterRSS net rssParse handle = .ok f ∧
      fetchNitterRSS net₂ rssParse₂ handle = .ok f := by
  constructor
  · unfold fetchNitterRSS
    rw [hsplit]
    exact goMirrors_first_ok _ _ _ _ _ hpre hbase _
  · unfold fetchNitterRSS
    rw [hsplit]
    apply goMirrors_first_ok
    · intro b hb
      rw [hagree b (by simp [hb])]
      exact hpre b hb
    · rw [hagree base (by simp)]
      exact hbase

theorem fetchNitterRSS_first_mirror_wins_witness :
    fetchNitterRSS okNet okParse "@user" = .ok ⟨[]⟩ ∧
      fetchNitterRSS okNet okParse "@user" = .ok ⟨[]⟩ :=
  fetchNitterRSS_first_mirror_wins okNet okNet okParse okParse "@user"
    [] "https://nitter.net"
    ["https://nitter.poast.org", "https://nitter.privacydev.net",
     "https://nitter.tiekoetter.com", "https://nitter.space"] ⟨[]⟩
    (by decide) (by simp) rfl (fun b _ => rfl)

/-! ## Full-failure theorems -/

/-- When every attempt of an attempt-indexed oracle fails, the retry wrapper
surfaces an error. -/
theorem withRetryGo_error {ε α : Type} (f : Nat → Except ε α)
    (hf : ∀ n, exceptOk (f n) = false) :
    ∀ fuel a, ∃ e, withRetryGo f a fuel = .error e := by
  intro fuel
  induction fuel with
  | zero =>
    intro a
    cases h : f a with
    | ok v => have := hf a; rw [h] at this; simp [exceptOk] at this
    | error e => exact ⟨e, by simp [withRetryGo, h]⟩
  | succ n ih =>
    intro a
    cases h : f a with
    | ok v => have := hf a; rw [h] at this; simp [exceptOk] at this
    | error e => simpa [withRetryGo, h] using ih (a + 1)

/-- C8: when all mirrors of all three tiers fail for a handle in a cycle,
that handle's cycle logs exactly one failure, delivers nothing, and leaves
both the in-memory and the on-disk dedup registry untouched. -/
theorem allTiersFail_no_mutation (h : String) (s0 d0 : List String)
    (rssO htmlO syndO : Nat → Except String Feed)
    (hr : ∀ n, exceptOk (rssO n) = false)
    (hh : ∀ n, exceptOk (htmlO n) = false)
    (hs : ∀ n, exceptOk (syndO n) = false) :
    runHandle h s0 d0 (fetchFeed rssO htmlO syndO) = ⟨s0, d0, [], 1⟩ := by
  obtain ⟨e1, he1⟩ := withRetryGo_error rssO hr 1 0
  obtain ⟨e2, he2⟩ := withRetryGo_error htmlO hh 1 0
  obtain ⟨e3, he3⟩ := withRetryGo_error syndO hs 1 0
  simp [fetchFeed, withRetry, he1, he2, he3, runHandle]

theorem allTiersFail_no_mutation_witness :
    runHandle "@x" ["@x:1"] ["@x:1"] (fetchFeed downTier downTier downTier) =
      ⟨["@x:1"], ["@x:1"], [], 1⟩ :=
  allTiersFail_no_mutation "@x" ["@x:1"] ["@x:1"] downTier downTier downTier
    (fun _ => rfl) (fun _ => rfl) (fun _ => rfl)

/-! ## Scheduler invariants -/

/-- Case analysis of one step of the per-item loop: either the item is
skipped and the state is unchanged, or a fresh key is marked — without a
delivery when the text is empty, with one otherwise. -/
theorem processItem_cases (h : String) (disk : List String) (st : HandleRun)
    (item : Item) :
    processItem h disk st item = st ∨
      ∃ id, getTweetIdFromLink item.link = some id ∧
        dedupKey h id ∉ st.seen ∧
        (processItem h disk st item =
            ⟨dedupKey h id :: st.seen, true, st.sent⟩ ∨
          processItem h disk st item =
            ⟨dedupKey h id :: st.seen, true,
              st.sent ++ [⟨dedupKey h id, st.seen, disk⟩]⟩) := by
  cases hid : getTweetIdFromLink item.link with
  | none => left; simp [processItem, hid]
  | some id =>
    by_cases hs : dedupKey h id ∈ st.seen
    · left; simp [processItem, hid, hs]
    · right
      refine ⟨id, rfl, hs, ?_⟩
      by_cases ht : extractText item = ""
      · left; simp [processItem, hid, hs, ht]
      · right; simp [processItem, hid, hs, ht]

/-- Keys marked in the registry stay marked through the item loop. -/
theorem foldl_seen_mono (h : String) (disk : List String) (l : List Item)
    (st : HandleRun) (k : String) (hk : k ∈ st.seen) :
    k ∈ (l.foldl (processItem h disk) st).seen := by
  induction l generalizing st with
  | nil => exact hk
  | cons i l ih =>
    rw [List.foldl_cons]
    rcases processItem_cases h disk st i with hc | ⟨id, _, _, hc | hc⟩ <;>
      · rw [hc]; exact ih _ (by simp [hk])

/-- Every key delivered by the item loop ends up marked in the registry. -/
theorem foldl_sent_marked (h : String) (disk : List String) (l : List Item)
    (st : HandleRun) (hst : ∀ e ∈ st.sent, e.key ∈ st.seen) :
    ∀ e ∈ (l.foldl (processItem h disk) st).sent,
      e.key ∈ (l.foldl (processItem h disk) st).seen := by
  induction l generalizing st with
  | nil => exact hst
  | cons i l ih =>
    rw [List.foldl_cons]
    rcases processItem_cases h disk st i with hc | ⟨id, _, _, hc | hc⟩ <;>
      rw [hc] <;> apply ih <;> intro e he
    · exact hst e he
    · simp only at he
      exact List.mem_cons_of_mem _ (hst e he)
    · simp only [List.mem_append, List.mem_singleton] at he
      rcases he with he | he
      · exact List.mem_cons_of_mem _ (hst e he)
      · subst he; exact List.mem_cons_self _ _

/-- A key already marked in the registry is never delivered by the item
loop. -/
theorem foldl_skip (h : String) (disk : List String) (l : List Item)
    (st : HandleRun) (k : String) (hk : k ∈ st.seen) :
    ∀ e ∈ (l.foldl (processItem h disk) st).sent, e ∈ st.sent ∨ e.key ≠ k := by
  induction l generalizing st with
  | nil => intro e he; exact Or.inl he
  | cons i l ih =>
    rw [List.foldl_cons]
    rcases processItem_cases h disk st i with hc | ⟨id, _, hfresh, hc | hc⟩ <;>
      rw [hc] <;> intro e he
    · exact ih st hk e he
    · have := ih ⟨dedupKey h id :: st.seen, true, st.sent⟩ (by simp [hk]) e he
      simpa using this
    · have := ih ⟨dedupKey h id :: st.seen, true,
        st.sent ++ [⟨dedupKey h id, st.seen, disk⟩]⟩ (by simp [hk]) e he
      rcases this with hmem | hne
      · simp only [List.mem_append, List.mem_singleton] at hmem
        rcases hmem with hm | hm
        · exact Or.inl hm
        · subst hm
          exact Or.inr (by simp; rintro rfl; exact hfresh hk)
      · exact Or.inr hne

/-- The keys delivered by the item loop carry no duplicates. -/
theorem foldl_sent_nodup (h : String) (disk : List String) (l : List Item)
    (st : HandleRun) (hnd : (st.sent.map SendEvent.key).Nodup)
    (hst : ∀ e ∈ st.sent, e.key ∈ st.seen) :
    ((l.foldl (processItem h disk) st).sent.map SendEvent.key).Nodup := by
  induction l generalizing st with
  | nil => exact hnd
  | cons i l ih =>
    rw [List.foldl_cons]
    rcases processItem_cases h disk st i with hc | ⟨id, _, hfresh, hc | hc⟩ <;>
      rw [hc]
    · exact ih st hnd hst
    · exact ih _ hnd (fun e he => List.mem_cons_of_mem _ (hst e he))
    · apply ih
      · simp only [List.map_append, List.map_cons, List.map_nil]
        rw [List.nodup_append]
        refine ⟨hnd, by simp, ?_⟩
        intro a ha hb
        simp only [List.mem_cons, List.not_mem_nil, or_false] at hb
        subst hb
        obtain ⟨e, he, hek⟩ := List.mem_map.mp ha
        exact hfresh (hek ▸ hst e he)
      · intro e he
        simp only [List.mem_append, List.mem_singleton] at he
        rcases he with he | he
        · exact List.mem_cons_of_mem _ (hst e he)
        · subst he; exact List.mem_cons_self _ _

/-- If the item loop delivered anything, the `changed` flag is set. -/
theorem foldl_changed (h : String) (disk : List String) (l : List Item)
    (st : HandleRun) (hst : st.sent ≠ [] → st.changed = true) :
    (l.foldl (processItem h disk) st).sent ≠ [] →
      (l.foldl (processItem h disk) st).changed = true := by
  induction l generalizing st with
  | nil => exact hst
  | cons i l ih =>
    rw [List.foldl_cons]
    rcases processItem_cases h disk st i with hc | ⟨id, _, _, hc | hc⟩ <;>
      rw [hc] <;> apply ih <;> intro h'
    · exact hst h'
    · rfl
    · rfl

/-- A key marked before a cycle is never delivered by that cycle. -/
theorem runHandle_skip (h : String) (s0 d0 : List String)
    (fr : Except String Feed) (k : String) (hk : k ∈ s0) :
    k ∉ sentKeys (runHandle h s0 d0 fr) := by
  cases fr with
  | error e => simp [runHandle, sentKeys]
  | ok feed =>
    intro hmem
    obtain ⟨e, he, hek⟩ := List.mem_map.mp hmem
    rcases foldl_skip h d0 _ ⟨s0, false, []⟩ k hk e he with h0 | hne
    · simp at h0
    · exact hne hek

/-- Keys marked before a cycle stay marked after it. -/
theorem runHandle_seen_mono (h : String) (s0 d0 : List String)
    (fr : Except String Feed) (k : String) (hk : k ∈ s0) :
    k ∈ (runHandle h s0 d0 fr).seen := by
  cases fr with
  | error e => simpa [runHandle]
  | ok feed => exact foldl_seen_mono h d0 _ ⟨s0, false, []⟩ k hk

/-- Every key a cycle delivers is marked in its final registry. -/
theorem runHandle_sent_marked (h : String) (s0 d0 : List String)
    (fr : Except String Feed) (k : String)
    (hk : k ∈ sentKeys (runHandle h s0 d0 fr)) :
    k ∈ (runHandle h s0 d0 fr).seen := by
  cases fr with
  | error e => simp [runHandle, sentKeys] at hk
  | ok feed =>
    obtain ⟨e, he, hek⟩ := List.mem_map.mp hk
    exact hek ▸ foldl_sent_marked h d0 _ ⟨s0, false, []⟩ (by simp) e he

/-- A single cycle never delivers the same key twice. -/
theorem runHandle_sent_nodup (h : String) (s0 d0 : List String)
    (fr : Except String Feed) : (sentKeys (runHandle h s0 d0 fr)).Nodup := by
  cases fr with
  | error e => simp [runHandle, sentKeys]
  | ok feed => exact foldl_sent_nodup h d0 _ ⟨s0, false, []⟩ (by simp) (by simp)

/-- If a cycle delivered anything, the registry was rewritten to disk at the
end of the handle's loop. -/
theorem runHandle_disk_of_sent (h : String) (s0 d0 : List String)
    (fr : Except String Feed) (hne : sentKeys (runHandle h s0 d0 fr) ≠ []) :
    (runHandle h s0 d0 fr).disk = (runHandle h s0 d0 fr).seen := by
  cases fr with
  | error e => simp [runHandle, sentKeys] at hne
  | ok feed =>
    have hrfl : sentKeys (runHandle h s0 d0 (.ok feed)) =
        (runHandleItems h s0 d0 feed.items).sent.map SendEvent.key := rfl
    have hsent : (runHandleItems h s0 d0 feed.items).sent ≠ [] := by
      intro h0
      apply hne
      rw [hrfl, h0]
      rfl
    have hch : (runHandleItems h s0 d0 feed.items).changed = true :=
      foldl_changed h d0 ((sliceLast MAX_ITEMS_PER_HANDLE feed.items).reverse)
        ⟨s0, false, []⟩ (fun hx => absurd rfl hx) hsent
    show (if (runHandleItems h s0 d0 feed.items).changed then
        (runHandleItems h s0 d0 feed.items).seen else d0) =
      (runHandleItems h s0 d0 feed.items).seen
    rw [hch]
    simp

/-- Once a key is in the registry, no later cycle — whatever content its
feeds resolve to — ever delivers it, and it stays in the registry. -/
theorem runHandleCycles_skip (h : String) (feeds : List (Except String Feed)) :
    ∀ (s d : List String) (k : String), k ∈ s →
      k ∉ (runHandleCycles h feeds s d).2.2 ∧
        k ∈ (runHandleCycles h feeds s d).1 := by
  induction feeds with
  | nil => intro s d k hk; simpa [runHandleCycles]
  | cons f fs ih =>
    intro s d k hk
    have h1 := runHandle_skip h s d f k hk
    have h2 := runHandle_seen_mono h s d f k hk
    have h3 := ih (runHandle h s d f).seen (runHandle h s d f).disk k h2
    constructor
    · simp only [runHandleCycles, List.mem_append]
      rintro (hc | hc)
      · exact h1 hc
      · exact h3.1 hc
    · simpa [runHandleCycles] using h3.2

/-- C1: once a cycle has delivered a post and thereby marked its dedup key,
no later cycle delivers that key again — in particular a later cycle seeing
identical source content skips it — and no single cycle delivers a key
twice, so each `(handle, id)` key is delivered at most once over the
registry's lifetime. -/
theorem dedup_delivers_at_most_once (h : String) (s0 d0 : List String)
    (items : List Item) (feeds : List (Except String Feed)) (k : String)
    (hk : k ∈ sentKeys (runHandle h s0 d0 (.ok ⟨items⟩))) :
    (sentKeys (runHandle h s0 d0 (.ok ⟨items⟩))).Nodup ∧
      k ∈ (runHandle h s0 d0 (.ok ⟨items⟩)).seen ∧
      k ∉ (runHandleCycles h feeds (runHandle h s0 d0 (.ok ⟨items⟩)).seen
            (runHandle h s0 d0 (.ok ⟨items⟩)).disk).2.2 := by
  have hmark := runHandle_sent_marked h s0 d0 (.ok ⟨items⟩) k hk
  exact ⟨runHandle_sent_nodup h s0 d0 _, hmark,
    (runHandleCycles_skip h feeds _ _ k hmark).1⟩

theorem dedup_delivers_at_most_once_witness :
    "@h:1" ∈ sentKeys (runHandle "@h" [] [] (.ok ⟨[mkPost 1]⟩)) ∧
      ((sentKeys (runHandle "@h" [] [] (.ok ⟨[mkPost 1]⟩))).Nodup ∧
        "@h:1" ∈ (runHandle "@h" [] [] (.ok ⟨[mkPost 1]⟩)).seen ∧
        "@h:1" ∉ (runHandleCycles "@h" [.ok ⟨[mkPost 1]⟩, .error "x"]
              (runHandle "@h" [] [] (.ok ⟨[mkPost 1]⟩)).seen
              (runHandle "@h" [] [] (.ok ⟨[mkPost 1]⟩)).disk).2.2) :=
  ⟨by decide, dedup_delivers_at_most_once "@h" [] [] [mkPost 1]
    [.ok ⟨[mkPost 1]⟩, .error "x"] "@h:1" (by decide)⟩

/-- C2: the scheduler's window `items.slice(-N)` is the tail of the feed
list.  On the claim's own scenario (three entries, newest first, cap 8) the
window is the whole feed and delivery is 10, 11, 12 with exactly three
registry keys — but on a newest-first feed of nine entries with cap 8 the
window consists of the OLDEST eight: ids 1–8 are delivered and the most
recent id 9 is not, contrary to the claim (and to the source's own
`// newest N` comment at src/tw2wa.js:439). -/
theorem slice_takes_oldest_window :
    (sentKeys (runHandle "@h" [] [] (.ok ⟨[mkPost 12, mkPost 11, mkPost 10]⟩)) =
        ["@h:10", "@h:11", "@h:12"] ∧
      (runHandle "@h" [] [] (.ok ⟨[mkPost 12, mkPost 11, mkPost 10]⟩)).seen =
        ["@h:12", "@h:11", "@h:10"]) ∧
    sentKeys (runHandle "@h" [] []
        (.ok ⟨[mkPost 9, mkPost 8, mkPost 7, mkPost 6, mkPost 5, mkPost 4,
               mkPost 3, mkPost 2, mkPost 1]⟩)) =
      ["@h:1", "@h:2", "@h:3", "@h:4", "@h:5", "@h:6", "@h:7", "@h:8"] ∧
    "@h:9" ∉ sentKeys (runHandle "@h" [] []
        (.ok ⟨[mkPost 9, mkPost 8, mkPost 7, mkPost 6, mkPost 5, mkPost 4,
               mkPost 3, mkPost 2, mkPost 1]⟩)) := by decide

/-- C9 counterexample: with two fresh posts in one cycle, the first key is
already marked in memory when the second post is processed and delivered,
but the on-disk registry observed at that moment is still the initial empty
one — the registry is NOT persisted between posts of the same handle. -/
theorem seen_not_persisted_between_posts :
    (runHandle "@h" [] [] (.ok ⟨[mkPost 2, mkPost 1]⟩)).sent =
        [⟨"@h:1", [], []⟩, ⟨"@h:2", ["@h:1"], []⟩] ∧
      "@h:1" ∈ (SendEvent.memAtSend ⟨"@h:2", ["@h:1"], []⟩) ∧
      "@h:1" ∉ (SendEvent.diskAtSend ⟨"@h:2", ["@h:1"], []⟩) ∧
      (runHandle "@h" [] [] (.ok ⟨[mkPost 2, mkPost 1]⟩)).disk =
        ["@h:2", "@h:1"] := by decide

/-- C9 (amended): the registry is persisted once per handle — after a
handle's posts are processed, any cycle that delivered something rewrites
the on-disk store to the full in-memory registry, so every delivered key is
on disk before the next handle is processed; within a handle, marks are
memory-only until that rewrite. -/
theorem registry_persisted_per_handle (h : String) (s0 d0 : List String)
    (fr : Except String Feed) (k : String)
    (hk : k ∈ sentKeys (runHandle h s0 d0 fr)) :
    (runHandle h s0 d0 fr).disk = (runHandle h s0 d0 fr).seen ∧
      k ∈ (runHandle h s0 d0 fr).disk := by
  have hdisk := runHandle_disk_of_sent h s0 d0 fr
    (fun h0 => by rw [h0] at hk; exact List.not_mem_nil _ hk)
  exact ⟨hdisk, hdisk ▸ runHandle_sent_marked h s0 d0 fr k hk⟩

theorem registry_persisted_per_handle_witness :
    "@h:1" ∈ sentKeys (runHandle "@h" [] [] (.ok ⟨[mkPost 1]⟩)) ∧
      ((runHandle "@h" [] [] (.ok ⟨[mkPost 1]⟩)).disk =
          (runHandle "@h" [] [] (.ok ⟨[mkPost 1]⟩)).seen ∧
        "@h:1" ∈ (runHandle "@h" [] [] (.ok ⟨[mkPost 1]⟩)).disk) :=
  ⟨by decide,
    registry_persisted_per_handle "@h" [] [] (.ok ⟨[mkPost 1]⟩) "@h:1" (by decide)⟩

/-- C10: an unseen item whose extracted text is empty gets its key marked as
delivered without any message being sent, and — the registry being
permanent — no later cycle ever delivers that key, even if the item's
content becomes extractable. -/
theorem emptyText_marked_without_send (h : String) (disk : List String)
    (st : HandleRun) (item : Item) (id : String)
    (hid : getTweetIdFromLink item.link = some id)
    (hseen : dedupKey h id ∉ st.seen) (htext : extractText item = "") :
    processItem h disk st item = ⟨dedupKey h id :: st.seen, true, st.sent⟩ ∧
      ∀ (feeds : List (Except String Feed)) (disk' : List String),
        dedupKey h id ∉
          (runHandleCycles h feeds (processItem h disk st item).seen disk').2.2 := by
  have hstep : processItem h disk st item =
      ⟨dedupKey h id :: st.seen, true, st.sent⟩ := by
    simp [processItem, hid, hseen, htext]
  refine ⟨hstep, fun feeds disk' => ?_⟩
  rw [hstep]
  exact (runHandleCycles_skip h feeds _ disk' _ (List.mem_cons_self _ _)).1

theorem emptyText_marked_without_send_witness :
    (getTweetIdFromLink emptyTextItem.link = some "5" ∧
        "@h:5" ∉ ([] : List String) ∧ extractText emptyTextItem = "") ∧
      processItem "@h" [] ⟨[], false, []⟩ emptyTextItem =
          ⟨["@h:5"], true, []⟩ ∧
        ∀ (feeds : List (Except String Feed)) (disk' : List String),
          "@h:5" ∉ (runHandleCycles "@h" feeds
              (processItem "@h" [] ⟨[], false, []⟩ emptyTextItem).seen disk').2.2 :=
  ⟨⟨by decide, by decide, by decide⟩,
    emptyText_marked_without_send "@h" [] ⟨[], false, []⟩ emptyTextItem "5"
      (by decide) (by decide) (by decide)⟩

/-! ## Image-normalisation theorems -/

/-- C3 counterexample: a protocol-relative image URL found through the
content-field pattern match of `pickImage` is returned verbatim, not
rewritten to the secure scheme — so the rewriting is not performed on every
code path. -/
theorem contentImage_not_rewritten :
    pickImage contentImgItem = some "//example.com/x.jpg" ∧
      pickImage contentImgItem ≠ some ("https:" ++ "//example.com/x.jpg") := by
  decide

/-- A two-slash prefix contains a one-slash prefix. -/
theorem startsWith_slash_of_two (s : String)
    (h : strStartsWith ['/', '/'] s = true) : strStartsWith ['/'] s = true := by
  unfold strStartsWith at h ⊢
  cases hd : s.data with
  | nil => rw [hd] at h; simp [dropPat] at h
  | cons c cs =>
    rw [hd] at h
    by_cases hc : c = '/'
    · simp [dropPat, hc]
    · simp [dropPat, hc] at h

/-- A string with a two-slash prefix is nonempty. -/
theorem ne_empty_of_two_slash (s : String)
    (h : strStartsWith ['/', '/'] s = true) : s ≠ "" := by
  intro h0
  rw [h0] at h
  simp [strStartsWith, dropPat] at h

/-- C3 (amended): protocol-relative image URLs are rewritten to the
secure-scheme form on the syndication-widget and OG-metadata paths; the
DOM-timeline path instead prefixes the mirror base (treating them as
site-relative paths), and the content-field pattern match of `pickImage`
returns them verbatim — the rewriting is not uniform across tiers. -/
theorem protoRelative_rewrite_per_tier (url base : String)
    (hu : strStartsWith ['/', '/'] url = true) :
    syndImage (some url) none = some ("https:" ++ url) ∧
      ogImage (some url) = some ("https:" ++ url) ∧
      domImage base (some url) = some (base ++ url) ∧
      pickImage contentImgItem = some "//example.com/x.jpg" := by
  have hne := ne_empty_of_two_slash url hu
  have h1 := startsWith_slash_of_two url hu
  refine ⟨?_, ?_, ?_, by decide⟩
  · simp [syndImage, jsOr, hne, hu]
  · simp [ogImage, jsOr, hne, hu]
  · simp [domImage, hne, h1]

theorem protoRelative_rewrite_per_tier_witness :
    strStartsWith ['/', '/'] "//example.com/x.jpg" = true ∧
      (syndImage (some "//example.com/x.jpg") none =
          some ("https:" ++ "//example.com/x.jpg") ∧
        ogImage (some "//example.com/x.jpg") =
          some ("https:" ++ "//example.com/x.jpg") ∧
        domImage "https://nitter.net" (some "//example.com/x.jpg") =
          some ("https://nitter.net" ++ "//example.com/x.jpg") ∧
        pickImage contentImgItem = some "//example.com/x.jpg") :=
  ⟨by decide,
    protoRelative_rewrite_per_tier "//example.com/x.jpg" "https://nitter.net"
      (by decide)⟩

/-! ## Timestamp-precedence theorems -/

/-- C4 counterexample: two items share the same present structured date
field (which `Date` cannot parse) and differ only in the raw tier timestamp
`_ts`, yet the display-time builder produces different outputs — so the raw
timestamp string IS used for a post that carries a structured date field. -/
theorem rawTs_used_despite_isoDate :
    staleIsoItem.isoDate = staleIsoItem2.isoDate ∧
      staleIsoItem.isoDate = some "not a date" ∧
      getDisplayTime (fun _ => none) staleIsoItem ≠
        getDisplayTime (fun _ => none) staleIsoItem2 := by decide

/-- C4 (amended): a structured date field, when present and parseable as a
date, always overrides the raw tier timestamp: the display time is its IST
rendering, and `_ts` is not consulted.  (When the structured field is
present but unparseable, the builder falls back to `_ts`.) -/
theorem isoDate_overrides_ts_when_parseable (statusTime : String → Option String)
    (item : Item) (iso : String) (d : Nat)
    (hiso : item.isoDate = some iso) (hd : jsDateParse iso = some d) :
    getDisplayTime statusTime item = formatIST d := by
  have hne : iso ≠ "" := by
    intro h0
    rw [h0] at hd
    simp [jsDateParse] at hd
  simp [getDisplayTime, hiso, jsOr, hne, hd]

theorem isoDate_overrides_ts_when_parseable_witness :
    (freshIsoItem.isoDate = some "2024-05-05" ∧
        jsDateParse "2024-05-05" = some 20240505) ∧
      getDisplayTime (fun _ => none) freshIsoItem = formatIST 20240505 :=
  ⟨⟨by decide, by decide⟩,
    isoDate_overrides_ts_when_parseable (fun _ => none) freshIsoItem
      "2024-05-05" 20240505 (by decide) (by decide)⟩

/-! ## Idempotence analysis of `htmlToText` -/

theorem wsNotNl_ne_nl (c : Char) (h : wsNotNl c = true) : c ≠ '\n' := by
  intro h0
  rw [h0] at h
  exact absurd h (by decide)

theorem okT_cons_not_ws (c : Char) (hc : wsNotNl c = false) (cs : List Char) :
    okT (c :: cs) = okT cs := by
  cases cs <;> simp [okT, headOkFor, hc]

theorem okT_tail (c : Char) (cs : List Char) (h : okT (c :: cs) = true) :
    okT cs = true := by
  simp only [okT, Bool.and_eq_true] at h
  exact h.2

/-- Non-newline whitespace may be prepended in front of a non-newline head
without affecting the invariant. -/
theorem okT_ws_append (buf : List Char) (hbuf : ∀ x ∈ buf, wsNotNl x = true)
    (c : Char) (hc : c ≠ '\n') (X : List Char) :
    okT (buf ++ c :: X) = okT (c :: X) := by
  induction buf with
  | nil => rfl
  | cons b bs ih =>
    have hb := hbuf b (List.mem_cons_self _ _)
    have hrest := ih (fun x hx => hbuf x (List.mem_cons_of_mem _ hx))
    rw [List.cons_append,
      show okT (b :: (bs ++ c :: X)) =
        (headOkFor b (bs ++ c :: X) && okT (bs ++ c :: X)) from by simp [okT],
      hrest]
    have hh : headOkFor b (bs ++ c :: X) = true := by
      cases bs with
      | nil => simp [headOkFor, hc]
      | cons b2 bs' =>
        have hb2 := wsNotNl_ne_nl b2 (hbuf b2 (by simp))
        simp [headOkFor, hb2]
    rw [hh, Bool.true_and]

/-- The right-strip scanner establishes the invariant. -/
theorem rslGo_okT (l : List Char) : ∀ buf, (∀ x ∈ buf, wsNotNl x = true) →
    okT (rslGo buf l) = true := by
  induction l with
  | nil => intro buf _; rfl
  | cons c cs ih =>
    intro buf hbuf
    cases hw : wsNotNl c with
    | true =>
      rw [show rslGo buf (c :: cs) = rslGo (buf ++ [c]) cs from by simp [rslGo, hw]]
      refine ih _ (fun x hx => ?_)
      rcases List.mem_append.mp hx with h | h
      · exact hbuf x h
      · rw [List.mem_singleton.mp h]; exact hw
    | false =>
      by_cases hn : c = '\n'
      · subst hn
        rw [show rslGo buf ('\n' :: cs) = '\n' :: rslGo [] cs from by
          simp [rslGo, hw]]
        rw [okT_cons_not_ws _ (by decide)]
        exact ih [] (by simp)
      · rw [show rslGo buf (c :: cs) = buf ++ c :: rslGo [] cs from by
          simp [rslGo, hw, hn]]
        rw [okT_ws_append buf hbuf c hn, okT_cons_not_ws _ hw]
        exact ih [] (by simp)

/-- A nonempty all-whitespace text violates the invariant at its end. -/
theorem allWs_okT_nil (buf : List Char) (hbuf : ∀ x ∈ buf, wsNotNl x = true)
    (h : okT buf = true) : buf = [] := by
  induction buf with
  | nil => rfl
  | cons b bs ih =>
    have hbs := ih (fun x hx => hbuf x (List.mem_cons_of_mem _ hx))
      (okT_tail _ _ h)
    subst hbs
    have hb := hbuf b (List.mem_cons_self _ _)
    simp [okT, headOkFor, hb] at h

/-- Non-newline whitespace directly before a newline violates the
invariant. -/
theorem allWs_okT_nl (buf : List Char) (hbuf : ∀ x ∈ buf, wsNotNl x = true)
    (X : List Char) (h : okT (buf ++ '\n' :: X) = true) : buf = [] := by
  induction buf with
  | nil => rfl
  | cons b bs ih =>
    have hbs := ih (fun x hx => hbuf x (List.mem_cons_of_mem _ hx))
      (okT_tail _ _ h)
    subst hbs
    have hb := hbuf b (List.mem_cons_self _ _)
    simp [okT, headOkFor, hb] at h

/-- On invariant-satisfying text, the right-strip scanner is the
identity. -/
theorem rslGo_id (l : List Char) : ∀ buf, (∀ x ∈ buf, wsNotNl x = true) →
    okT (buf ++ l) = true → rslGo buf l = buf ++ l := by
  induction l with
  | nil =>
    intro buf hbuf h
    rw [List.append_nil] at h
    rw [allWs_okT_nil buf hbuf h]
    rfl
  | cons c cs ih =>
    intro buf hbuf h
    cases hw : wsNotNl c with
    | true =>
      rw [show rslGo buf (c :: cs) = rslGo (buf ++ [c]) cs from by simp [rslGo, hw]]
      rw [ih (buf ++ [c])
        (fun x hx => by
          rcases List.mem_append.mp hx with h' | h'
          · exact hbuf x h'
          · rw [List.mem_singleton.mp h']; exact hw)
        (by rw [List.append_assoc]; simpa using h)]
      simp
    | false =>
      by_cases hn : c = '\n'
      · subst hn
        have hbe := allWs_okT_nl buf hbuf cs h
        subst hbe
        rw [show rslGo [] ('\n' :: cs) = '\n' :: rslGo [] cs from by
          simp [rslGo, hw]]
        rw [ih [] (by simp) (by simpa using okT_tail _ _ (by simpa using h))]
        rfl
      · rw [show rslGo buf (c :: cs) = buf ++ c :: rslGo [] cs from by
          simp [rslGo, hw, hn]]
        have hcs : okT cs = true := by
          apply okT_tail c
          rw [← okT_ws_append buf hbuf c hn]
          exact h
        rw [ih [] (by simp) (by simpa using hcs)]
        simp

theorem okT_replicate_nl (m : Nat) : okT (List.replicate m '\n') = true := by
  induction m with
  | zero => rfl
  | succ n ih =>
    rw [List.replicate_succ, okT_cons_not_ws _ (by decide)]
    exact ih

theorem okT_nl_append (m : Nat) (c : Char) (X : List Char)
    (h : okT (c :: X) = true) :
    okT (List.replicate m '\n' ++ c :: X) = true := by
  induction m with
  | zero => exact h
  | succ n ih =>
    rw [List.replicate_succ, List.cons_append, okT_cons_not_ws _ (by decide)]
    exact ih

/-- Collapsing newline runs preserves the right-stripped invariant. -/
theorem okT_collapseGo (l : List Char) : ∀ k, okT l = true →
    okT (collapseGo k l) = true := by
  induction l with
  | nil => intro k _; exact okT_replicate_nl _
  | cons c cs ih =>
    intro k h
    by_cases hn : c = '\n'
    · subst hn
      rw [show collapseGo k ('\n' :: cs) = collapseGo (k + 1) cs from by
        simp [collapseGo]]
      exact ih (k + 1) (okT_tail _ _ h)
    · rw [show collapseGo k (c :: cs) =
          List.replicate (min k 2) '\n' ++ c :: collapseGo 0 cs from by
        simp [collapseGo, hn]]
      apply okT_nl_append
      cases hw : wsNotNl c with
      | false =>
        rw [okT_cons_not_ws _ hw]
        exact ih 0 (okT_tail _ _ h)
      | true =>
        cases cs with
        | nil => simp [okT, headOkFor, hw] at h
        | cons d cs' =>
          have hd : ¬ (d = '\n') := by
            simp only [okT, headOkFor, hw, Bool.and_eq_true, Bool.or_eq_true,
              Bool.not_eq_true'] at h
            rcases h.1 with h1 | h1
            · exact absurd h1 (by simp)
            · simpa using h1
          have hih : okT (collapseGo 0 (d :: cs')) = true :=
            ih 0 (okT_tail _ _ h)
          rw [show collapseGo 0 (d :: cs') = d :: collapseGo 0 cs' from by
            simp [collapseGo, hd]] at hih
          rw [show collapseGo 0 (d :: cs') = d :: collapseGo 0 cs' from by
            simp [collapseGo, hd]]
          rw [show okT (c :: d :: collapseGo 0 cs') =
            (headOkFor c (d :: collapseGo 0 cs') && okT (d :: collapseGo 0 cs'))
            from by simp [okT]]
          rw [hih]
          simp [headOkFor, hd]

theorem okT_dropWhile (p : Char → Bool) (l : List Char) (h : okT l = true) :
    okT (l.dropWhile p) = true := by
  induction l with
  | nil => exact h
  | cons c cs ih =>
    rw [List.dropWhile_cons]
    split
    · exact ih (okT_tail _ _ h)
    · exact h

/-- A prefix whose last element is not whitespace inherits the invariant. -/
theorem okT_of_append (v : List Char) : ∀ w, okT (v ++ w) = true →
    lastNotWsb v = true → okT v = true := by
  induction v with
  | nil => intro w _ _; rfl
  | cons c v' ih =>
    intro w hvw hlast
    have h2 : okT (v' ++ w) = true := okT_tail _ _ hvw
    cases v' with
    | nil =>
      have hne : isWsChar c = false := by
        simpa [lastNotWsb] using hlast
      simp [okT, headOkFor, wsNotNl, hne]
    | cons d v'' =>
      have hlast' : lastNotWsb (d :: v'') = true := by
        simpa [lastNotWsb, List.getLast?_cons_cons] using hlast
      have hv' := ih w h2 hlast'
      have hh : headOkFor c ((d :: v'') ++ w) = true := by
        simp only [okT, Bool.and_eq_true] at hvw
        exact hvw.1
      rw [show okT (c :: d :: v'') = (headOkFor c (d :: v'') && okT (d :: v''))
        from by simp [okT]]
      rw [hv']
      rw [show headOkFor c (d :: v'') = headOkFor c ((d :: v'') ++ w) from rfl, hh]
      rfl

theorem okT_rdropWhile (l : List Char) (h : okT l = true) :
    okT (l.rdropWhile isWsChar) = true := by
  obtain ⟨w, hw⟩ := List.rdropWhile_prefix isWsChar l
  refine okT_of_append _ w (by rw [hw]; exact h) ?_
  cases hr : (l.rdropWhile isWsChar).getLast? with
  | none => simp [lastNotWsb, hr]
  | some c =>
    have hne : l.rdropWhile isWsChar ≠ [] := by
      intro h0
      rw [h0] at hr
      simp at hr
    have hlast := List.rdropWhile_last_not isWsChar l hne
    have h2 : c = (l.rdropWhile isWsChar).getLast hne := by
      rw [List.getLast?_eq_getLast_of_ne_nil hne] at hr
      exact (Option.some_inj.mp hr).symm
    simp only [lastNotWsb, hr]
    rw [h2]
    simpa using hlast

theorem okT_trimChars (l : List Char) (h : okT l = true) :
    okT (trimChars l) = true :=
  okT_rdropWhile _ (okT_dropWhile _ _ h)

theorem noTripleGo_replicate : ∀ (m j : Nat), j + m ≤ 2 →
    noTripleGo j (List.replicate m '\n') = true := by
  intro m
  induction m with
  | zero => intro j _; rfl
  | succ n ih =>
    intro j hj
    rw [List.replicate_succ]
    rw [show noTripleGo j ('\n' :: List.replicate n '\n') =
        (decide (j < 2) && noTripleGo (j + 1) (List.replicate n '\n')) from by
      simp [noTripleGo]]
    rw [ih (j + 1) (by omega)]
    have : j < 2 := by omega
    simp [this]

theorem noTripleGo_nonNl (c : Char) (hc : ¬ (c = '\n')) (X : List Char)
    (j : Nat) : noTripleGo j (c :: X) = noTripleGo 0 X := by
  simp [noTripleGo, hc]

theorem noTripleGo_rep_nonNl (c : Char) (hc : ¬ (c = '\n')) (X : List Char) :
    ∀ (m j : Nat), j + m ≤ 2 →
      noTripleGo j (List.replicate m '\n' ++ c :: X) = noTripleGo 0 X := by
  intro m
  induction m with
  | zero => intro j _; exact noTripleGo_nonNl c hc X j
  | succ n ih =>
    intro j hj
    rw [List.replicate_succ, List.cons_append]
    rw [show noTripleGo j ('\n' :: (List.replicate n '\n' ++ c :: X)) =
        (decide (j < 2) && noTripleGo (j + 1) (List.replicate n '\n' ++ c :: X))
        from by simp [noTripleGo]]
    rw [ih (j + 1) (by omega)]
    have : j < 2 := by omega
    simp [this]

/-- Collapsing establishes the no-triple-newline invariant. -/
theorem noTriple_collapseGo (l : List Char) : ∀ k,
    noTripleGo 0 (collapseGo k l) = true := by
  induction l with
  | nil =>
    intro k
    exact noTripleGo_replicate _ 0 (by simp)
  | cons c cs ih =>
    intro k
    by_cases hn : c = '\n'
    · subst hn
      rw [show collapseGo k ('\n' :: cs) = collapseGo (k + 1) cs from by
        simp [collapseGo]]
      exact ih (k + 1)
    · rw [show collapseGo k (c :: cs) =
          List.replicate (min k 2) '\n' ++ c :: collapseGo 0 cs from by
        simp [collapseGo, hn]]
      rw [noTripleGo_rep_nonNl c hn _ (min k 2) 0 (by simp)]
      exact ih 0

/-- On no-triple text the collapser is the identity (modulo the replayed
pending newlines). -/
theorem collapseGo_id (l : List Char) : ∀ k, k ≤ 2 → noTripleGo k l = true →
    collapseGo k l = List.replicate k '\n' ++ l := by
  induction l with
  | nil =>
    intro k hk _
    show List.replicate (min k 2) '\n' = _
    rw [Nat.min_eq_left hk]
    simp
  | cons c cs ih =>
    intro k hk h
    by_cases hn : c = '\n'
    · subst hn
      rw [show noTripleGo k ('\n' :: cs) =
          (decide (k < 2) && noTripleGo (k + 1) cs) from by simp [noTripleGo]]
        at h
      simp only [Bool.and_eq_true, decide_eq_true_eq] at h
      rw [show collapseGo k ('\n' :: cs) = collapseGo (k + 1) cs from by
        simp [collapseGo]]
      rw [ih (k + 1) (by omega) h.2]
      rw [List.replicate_succ']
      simp
    · rw [show collapseGo k (c :: cs) =
          List.replicate (min k 2) '\n' ++ c :: collapseGo 0 cs from by
        simp [collapseGo, hn]]
      rw [Nat.min_eq_left hk]
      rw [noTripleGo_nonNl c hn cs k] at h
      rw [ih 0 (by omega) h]
      simp

theorem noTripleGo_mono (l : List Char) : ∀ j k, j ≤ k →
    noTripleGo k l = true → noTripleGo j l = true := by
  induction l with
  | nil => intro j k _ _; rfl
  | cons c cs ih =>
    intro j k hjk h
    by_cases hn : c = '\n'
    · subst hn
      rw [show noTripleGo k ('\n' :: cs) =
          (decide (k < 2) && noTripleGo (k + 1) cs) from by simp [noTripleGo]]
        at h
      simp only [Bool.and_eq_true, decide_eq_true_eq] at h
      rw [show noTripleGo j ('\n' :: cs) =
          (decide (j < 2) && noTripleGo (j + 1) cs) from by simp [noTripleGo]]
      rw [ih (j + 1) (k + 1) (by omega) h.2]
      have : j < 2 := by omega
      simp [this]
    · rw [noTripleGo_nonNl c hn cs j]
      rw [noTripleGo_nonNl c hn cs k] at h
      exact h

theorem noTriple_tail (c : Char) (cs : List Char)
    (h : noTriple (c :: cs) = true) : noTriple cs = true := by
  unfold noTriple at *
  by_cases hn : c = '\n'
  · subst hn
    rw [show noTripleGo 0 ('\n' :: cs) =
        (decide ((0 : Nat) < 2) && noTripleGo 1 cs) from by simp [noTripleGo]]
      at h
    simp only [Bool.and_eq_true] at h
    exact noTripleGo_mono cs 0 1 (by omega) h.2
  · rw [noTripleGo_nonNl c hn cs 0] at h
    exact h

theorem noTriple_dropWhile (p : Char → Bool) (l : List Char)
    (h : noTriple l = true) : noTriple (l.dropWhile p) = true := by
  induction l with
  | nil => exact h
  | cons c cs ih =>
    rw [List.dropWhile_cons]
    split
    · exact ih (noTriple_tail c cs h)
    · exact h

theorem noTripleGo_append_left (v : List Char) : ∀ (w : List Char) (k : Nat),
    noTripleGo k (v ++ w) = true → noTripleGo k v = true := by
  induction v with
  | nil => intro w k _; rfl
  | cons c cs ih =>
    intro w k h
    by_cases hn : c = '\n'
    · subst hn
      rw [List.cons_append,
        show noTripleGo k ('\n' :: (cs ++ w)) =
          (decide (k < 2) && noTripleGo (k + 1) (cs ++ w)) from by
        simp [noTripleGo]] at h
      simp only [Bool.and_eq_true] at h
      rw [show noTripleGo k ('\n' :: cs) =
          (decide (k < 2) && noTripleGo (k + 1) cs) from by simp [noTripleGo]]
      rw [h.1, ih w (k + 1) h.2]
      rfl
    · rw [noTripleGo_nonNl c hn cs k]
      rw [List.cons_append, noTripleGo_nonNl c hn (cs ++ w) k] at h
      exact ih w 0 h

theorem noTriple_rdropWhile (l : List Char) (h : noTriple l = true) :
    noTriple (l.rdropWhile isWsChar) = true := by
  obtain ⟨w, hw⟩ := List.rdropWhile_prefix isWsChar l
  apply noTripleGo_append_left _ w 0
  rw [hw]
  exact h

theorem noTriple_trimChars (l : List Char) (h : noTriple l = true) :
    noTriple (trimChars l) = true :=
  noTriple_rdropWhile _ (noTriple_dropWhile _ _ h)

theorem dropWhile_head_not (p : Char → Bool) (l : List Char) (c : Char)
    (cs : List Char) (h : l.dropWhile p = c :: cs) : p c = false := by
  induction l with
  | nil => simp at h
  | cons a l' ih =>
    rw [List.dropWhile_cons] at h
    split at h
    · exact ih h
    · next hp =>
      injection h with h1 _
      subst h1
      cases hb : p a with
      | true => exact absurd hb hp
      | false => rfl

theorem dropWhile_eq_self_of_head (p : Char → Bool) (l : List Char)
    (h : ∀ c cs, l = c :: cs → p c = false) : l.dropWhile p = l := by
  cases l with
  | nil => rfl
  | cons c cs =>
    rw [List.dropWhile_cons, h c cs rfl]
    simp

theorem trimChars_idem (l : List Char) : trimChars (trimChars l) = trimChars l := by
  unfold trimChars
  have hd : (((l.dropWhile isWsChar).rdropWhile isWsChar).dropWhile isWsChar) =
      ((l.dropWhile isWsChar).rdropWhile isWsChar) := by
    apply dropWhile_eq_self_of_head
    intro c cs hc
    obtain ⟨w, hw⟩ := List.rdropWhile_prefix isWsChar (l.dropWhile isWsChar)
    rw [hc] at hw
    exact dropWhile_head_not isWsChar l c (cs ++ w) (by simpa using hw.symm)
  rw [hd]
  exact List.rdropWhile_idempotent _ _

theorem brReplace_id (cs : List Char) (h : '<' ∉ cs) : ∀ n,
    brReplace n cs = cs := by
  induction cs with
  | nil => intro n; cases n <;> rfl
  | cons c cs' ih =>
    intro n
    have hc : ¬ (c = '<') := fun h0 => h (h0 ▸ List.mem_cons_self _ _)
    cases n with
    | zero => rfl
    | succ m =>
      simp only [brReplace, if_neg hc]
      rw [ih (fun hm => h (List.mem_cons_of_mem _ hm)) m]

theorem replaceAllCI_lt_id (tl : List (Char × Char)) (rep : List Char)
    (cs : List Char) (h : '<' ∉ cs) : ∀ n,
      replaceAllCI (('<', '<') :: tl) rep n cs = cs := by
  induction cs with
  | nil => intro n; cases n <;> rfl
  | cons c cs' ih =>
    intro n
    have hc : ¬ (c = '<') := fun h0 => h (h0 ▸ List.mem_cons_self _ _)
    cases n with
    | zero => rfl
    | succ m =>
      have hm : dropPatCI (('<', '<') :: tl) (c :: cs') = none := by
        simp [dropPatCI, hc]
      simp only [replaceAllCI, hm]
      rw [ih (fun hx => h (List.mem_cons_of_mem _ hx)) m]

theorem stripTagsGo_id (l : List Char) (h : '<' ∉ l) :
    stripTagsGo false l = l := by
  induction l with
  | nil => rfl
  | cons c cs ih =>
    have hc : ¬ (c = '<') := fun h0 => h (h0 ▸ List.mem_cons_self _ _)
    simp only [stripTagsGo, if_neg hc]
    rw [ih (fun hx => h (List.mem_cons_of_mem _ hx))]

theorem heDecode_id (cs : List Char) (h : '&' ∉ cs) : ∀ n,
    heDecode n cs = cs := by
  induction cs with
  | nil => intro n; cases n <;> rfl
  | cons c cs' ih =>
    intro n
    have hc : ¬ (c = '&') := fun h0 => h (h0 ▸ List.mem_cons_self _ _)
    cases n with
    | zero => rfl
    | succ m =>
      simp only [heDecode, if_neg hc]
      rw [ih (fun hx => h (List.mem_cons_of_mem _ hx)) m]

theorem tagNorm_id (l : List Char) (h : '<' ∉ l) : tagNorm l = l := by
  have hp : ciPat "</p>" = ('<', '<') :: [('/', '/'), ('p', 'P'), ('>', '>')] := by
    decide
  have hl : ciPat "</li>" =
      ('<', '<') :: [('/', '/'), ('l', 'L'), ('i', 'I'), ('>', '>')] := by decide
  have hu : ciPat "</ul>" =
      ('<', '<') :: [('/', '/'), ('u', 'U'), ('l', 'L'), ('>', '>')] := by decide
  have hrep : ∀ (tl : List (Char × Char)) (rep : List Char) (n : Nat),
      replaceAllCI (('<', '<') :: tl) rep n l = l :=
    fun tl rep n => replaceAllCI_lt_id tl rep l h n
  unfold tagNorm
  simp only [brReplace_id l h, hp, hl, hu, hrep]

theorem okT_htmlToTextCore (l : List Char) : okT (htmlToTextCore l) = true := by
  unfold htmlToTextCore preTrim collapseNl rstripLines
  exact okT_trimChars _ (okT_collapseGo _ 0 (rslGo_okT _ [] (by simp)))

theorem noTriple_htmlToTextCore (l : List Char) :
    noTriple (htmlToTextCore l) = true := by
  unfold htmlToTextCore preTrim collapseNl
  exact noTriple_trimChars _ (noTriple_collapseGo _ 0)

theorem trim_htmlToTextCore (l : List Char) :
    trimChars (htmlToTextCore l) = htmlToTextCore l := by
  unfold htmlToTextCore
  exact trimChars_idem _

theorem rstripLines_id_of_okT (y : List Char) (h : okT y = true) :
    rstripLines y = y := by
  unfold rstripLines
  have := rslGo_id y [] (by simp) (by simpa using h)
  simpa using this

theorem collapseNl_id_of_noTriple (y : List Char) (h : noTriple y = true) :
    collapseNl y = y := by
  unfold collapseNl
  have := collapseGo_id y 0 (by omega) h
  simpa using this

/-- Re-running the pipeline on an output free of markup and entity
characters is the identity. -/
theorem htmlToTextCore_fixed (l : List Char)
    (h1 : '<' ∉ htmlToTextCore l) (h2 : '&' ∉ htmlToTextCore l) :
    htmlToTextCore (htmlToTextCore l) = htmlToTextCore l := by
  have htag : tagNorm (htmlToTextCore l) = htmlToTextCore l := tagNorm_id _ h1
  have hstrip : stripTags (htmlToTextCore l) = htmlToTextCore l :=
    stripTagsGo_id _ h1
  have key : preTrim (htmlToTextCore l) =
      collapseNl (rstripLines (htmlToTextCore l)) := by
    unfold preTrim
    rw [htag, hstrip, heDecode_id _ h2]
  calc htmlToTextCore (htmlToTextCore l)
      = trimChars (preTrim (htmlToTextCore l)) := rfl
    _ = trimChars (collapseNl (rstripLines (htmlToTextCore l))) := by rw [key]
    _ = trimChars (collapseNl (htmlToTextCore l)) := by
        rw [rstripLines_id_of_okT _ (okT_htmlToTextCore l)]
    _ = trimChars (htmlToTextCore l) := by
        rw [collapseNl_id_of_noTriple _ (noTriple_htmlToTextCore l)]
    _ = htmlToTextCore l := trim_htmlToTextCore l

/-- C5 counterexample: the text normalizer is not idempotent — entity-encoded
markup decodes into live markup on the first pass and is then consumed by the
second pass. -/
theorem htmlToText_not_idempotent :
    htmlToText "&lt;br&gt;" = "<br>" ∧
      htmlToText (htmlToText "&lt;br&gt;") = "" ∧
      htmlToText (htmlToText "&lt;br&gt;") ≠ htmlToText "&lt;br&gt;" := by
  decide

/-- C5 (amended): the text normalizer is idempotent on every input whose
normalized output is free of markup and entity characters (contains neither
`<` nor `&`); in general, re-normalizing can differ, because entity-encoded
markup re-enters the tag-stripping stages on the second pass. -/
theorem htmlToText_idem_of_plain (s : String)
    (h1 : '<' ∉ (htmlToText s).data) (h2 : '&' ∉ (htmlToText s).data) :
    htmlToText (htmlToText s) = htmlToText s := by
  by_cases hs : s = ""
  · subst hs; rfl
  · have hdef : htmlToText s = ⟨htmlToTextCore s.data⟩ := by
      simp [htmlToText, hs]
    by_cases hy : htmlToText s = ""
    · rw [hy]; rfl
    · have hstep : htmlToText (htmlToText s) =
          ⟨htmlToTextCore (htmlToText s).data⟩ := by
        rw [show htmlToText (htmlToText s) =
          (if htmlToText s = "" then ""
            else ⟨htmlToTextCore (htmlToText s).data⟩) from rfl, if_neg hy]
      have hdata : (htmlToText s).data = htmlToTextCore s.data := by rw [hdef]
      rw [hstep, hdata]
      rw [hdata] at h1 h2
      rw [htmlToTextCore_fixed s.data h1 h2]
      rw [hdef]

theorem htmlToText_idem_of_plain_witness :
    ('<' ∉ (htmlToText "a  b c d   \nee\t\n\n\n\nf ").data ∧
        '&' ∉ (htmlToText "a  b c d   \nee\t\n\n\n\nf ").data) ∧
      htmlToText (htmlToText "a  b c d   \nee\t\n\n\n\nf ") =
        htmlToText "a  b c d   \nee\t\n\n\n\nf " :=
  ⟨⟨by decide, by decide⟩,
    htmlToText_idem_of_plain "a  b c d   \nee\t\n\n\n\nf " (by decide)
      (by decide)⟩
